import Mathlib

/-!
Shallow embedding of the LSH core of `lsh_utils.py` (simphon repository).

Modelling conventions:
* A feature matrix (`numpy` 2D array of fixed-width string cells) is a
  `Mat := List (List Nat)`, row major; each cell is an abstract symbol code and
  `tobytes` of a window is the concatenation (flatten) of its cells, which is a
  faithful abstraction because numpy string arrays serialise cells in row-major
  order with a fixed item size and the hash consumes the bytes opaquely.
* The external 128-bit keyed hash `xxhash.xxh128(bytes, seed).intdigest()` is an
  abstract parameter `xxh : List Nat → Nat → Nat`; everything built on top of it
  (`hashf`, the simhash extractors, `matrix_simhash`) is translated from the
  source.  Python's builtin `int.bit_length` is `bit_length` below (least `k`
  with `n < 2 ^ k`, computed by a fuel-bounded search so that it evaluates).
* Python exceptions are modelled with `Option` (`none` = the call raises):
  `stride_simhash` can raise inside `numpy.lib.stride_tricks.sliding_window_view`
  and `simdiff` can raise a `ValueError`.
* `Token` objects are modelled by natural-number identifiers whose total order
  mirrors the `@total_ordering` on `Token`; `token.simhash()` is an abstract
  function `fp : Nat → Nat`.  Python's stable `sorted(..., key=lsh)` is
  `stableSortBy` (insertion sort on (original index, value) pairs ordered
  lexicographically by (key, original index), which is exactly stable sorting).
* `rotate` is translated verbatim; the Python version raises `ZeroDivisionError`
  when `bits = 0` (a case no claim exercises), while the Lean translation uses
  `Nat` semantics `k % 0 = k` there.
-/

/-- Least `k` with `n < 2 ^ k` searched with structural fuel (`n` is always
enough fuel since `bit_length n ≤ n`).  Modelled from the spec: Python's builtin
`int.bit_length()` (the number of significant bits), which the source calls on
hash values and simhashes. -/
def blAux (n : Nat) : Nat → Nat → Nat
  | 0, k => k
  | fuel + 1, k => if n < 2 ^ k then k else blAux n fuel (k + 1)

/-- Python `n.bit_length()`. -/
def bit_length (n : Nat) : Nat := blAux n n 0

/-- `lsh_utils.hashf(bytes_, bits, seed)`: XOR-combine 128-bit passes of the
underlying keyed hash, shifted by multiples of 128, until at least `bits` bits
are covered, then shift off any excess high bits.  `xxh` abstracts
`xxh128(bytes_, seed).intdigest()`. -/
def hashfPasses (xxh : List Nat → Nat → Nat) (bytes_ : List Nat) (seed : Nat) : Nat → Nat
  | 0 => 0
  | p + 1 => hashfPasses xxh bytes_ seed p ^^^ (xxh bytes_ (seed + p) <<< (128 * p))

def hashf (xxh : List Nat → Nat → Nat) (bytes_ : List Nat) (bits seed : Nat) : Nat :=
  let hash_bits := hashfPasses xxh bytes_ seed ((bits + 127) / 128)
  if bits < bit_length hash_bits then hash_bits >>> (bit_length hash_bits - bits)
  else hash_bits

/-- A feature matrix: list of rows of abstract cell codes. -/
abbrev Mat := List (List Nat)

/-- Number of columns, i.e. `m.shape[1]` of a rectangular numpy array. -/
def ncols (m : Mat) : Nat := (m.headD []).length

/-- `m.T` of a rectangular matrix. -/
def transposeM (m : Mat) : Mat :=
  (List.range (ncols m)).map (fun j => m.map (fun row => row.getD j 0))

/-- `lsh_utils.ngrams(iterable, n)`: all length-`n` sliding windows.  (Python
yields `max(0, len - n + 1)` windows for `n ≥ 1` and nothing for `n = 0`.) -/
def ngrams {α : Type} (l : List α) (n : Nat) : List (List α) :=
  if n = 0 then []
  else (List.range (l.length + 1 - n)).map (fun i => (l.drop i).take n)

/-- The per-bit majority-vote counter array `lsh` of the simhash extractors:
`lsh[j]` is incremented for every window whose hash has bit `j` set and
decremented otherwise (`if hashf(data, ...) & (1 << j): lsh[j] += 1 else -= 1`). -/
def voteCount (hash : List Nat → Nat) (datas : List (List Nat)) (j : Nat) : Int :=
  (datas.map (fun d => if 0 < hash d &&& (1 <<< j) then (1 : Int) else -1)).sum

/-- `sum(int(b > 0) << i for (i, b) in enumerate(reversed(lsh)))`: pack the
sign bits of the counter array, in reversed order, into an integer. -/
def packVotes (lsh : Nat → Int) (hashsize : Nat) : Nat :=
  ((List.range hashsize).map
    (fun i => (if 0 < lsh (hashsize - 1 - i) then 1 else 0) <<< i)).sum

/-- The windows hashed by `segment_simhash`: n-grams of rows, each serialised by
`b''.join(segment.tobytes() for segment in ngram)`. -/
def segDatas (m : Mat) (n : Nat) : List (List Nat) :=
  (ngrams m n).map List.flatten

/-- Counter array of `lsh_utils.segment_simhash`. -/
def segVotes (xxh : List Nat → Nat → Nat) (m : Mat) (n hashsize seed : Nat) : Nat → Int :=
  voteCount (fun d => hashf xxh d hashsize seed) (segDatas m n)

/-- `lsh_utils.segment_simhash(m, n, hashsize, seed)`. -/
def segment_simhash (xxh : List Nat → Nat → Nat) (m : Mat) (n hashsize seed : Nat) : Nat :=
  if m.length < n then 0
  else packVotes (segVotes xxh m n hashsize seed) hashsize

/-- The windows hashed by `stride_simhash`: every `n × n` view of the matrix in
row-major view order, serialised by `view.tobytes()` (row-major flatten). -/
def strideDatas (m : Mat) (n : Nat) : List (List Nat) :=
  (List.range (m.length + 1 - n)).flatMap (fun i =>
    (List.range (ncols m + 1 - n)).map (fun j =>
      (((m.drop i).take n).map (fun row => (row.drop j).take n)).flatten))

/-- Counter array of `lsh_utils.stride_simhash`. -/
def strideVotes (xxh : List Nat → Nat → Nat) (m : Mat) (n hashsize seed : Nat) : Nat → Int :=
  voteCount (fun d => hashf xxh d hashsize seed) (strideDatas m n)

/-- `lsh_utils.stride_simhash(m, n, hashsize, seed)`.  The guard
`m.shape < window_shape` is Python's *lexicographic* tuple comparison
`(rows, cols) < (n, n)`; when it fails but a dimension is still smaller than
`n`, `sliding_window_view` raises `ValueError` (modelled by `none`). -/
def stride_simhash (xxh : List Nat → Nat → Nat) (m : Mat) (n hashsize seed : Nat) :
    Option Nat :=
  if m.length < n ∨ (m.length = n ∧ ncols m < n) then some 0
  else if m.length < n ∨ ncols m < n then none
  else some (packVotes (strideVotes xxh m n hashsize seed) hashsize)

/-- The two extractor shapes stored in `lsh_utils.features`. -/
inductive Extractor : Type
  | stride : Extractor
  | segment : Extractor

/-- `features = [stride_simhash, stride_simhash, segment_simhash, segment_simhash]`. -/
def features : List Extractor := [.stride, .stride, .segment, .segment]

/-- `transforms = [m, m.T, m, m.T]` (the `Hashable_Ndarray` wrapper only affects
hashing/caching identity, not the array contents). -/
def transforms : List (Mat → Mat) :=
  [fun m => m, fun m => transposeM m, fun m => m, fun m => transposeM m]

/-- `n_gram_sizes = [3, 5, 7]`. -/
def n_gram_sizes : List Nat := [3, 5, 7]

def DEFAULT_SEED : Nat := 0
def DEFAULT_HASHSIZE : Nat := 256
def DEFAULT_NGRAM_SIZE : Nat := 3
def DEFAULT_WINDOW_SIZE : Nat := 2

/-- `SIMHASH_BITS = DEFAULT_HASHSIZE * len(features) * len(n_gram_sizes)`. -/
def SIMHASH_BITS : Nat := DEFAULT_HASHSIZE * features.length * n_gram_sizes.length

/-- The claims' `totalBits` for a given per-feature width:
`hashsize × (number of features) × (number of n-gram sizes)`. -/
def totalBits (hashsize : Nat) : Nat := hashsize * features.length * n_gram_sizes.length

/-- The left-shift applied in `matrix_simhash`:
`... << hashsize * i * j` for feature index `i` and n-gram size `j`. -/
def shiftAmount (hashsize i j : Nat) : Nat := hashsize * i * j

/-- `lsh_utils.pad(m, n)`: prepend/append `n // 2` rows of `'^'` / `'$'`
sentinels, then prepend/append `n // 2` columns of `'&'` / `'%'` sentinels
(cell codes are the ASCII codes of the sentinel characters). -/
def pad (m : Mat) (n : Nat) : Mat :=
  let left_padding := List.replicate (n / 2) (List.replicate (ncols m) 94)
  let right_padding := List.replicate (n / 2) (List.replicate (ncols m) 36)
  let padded_m := left_padding ++ m ++ right_padding
  padded_m.map (fun row =>
    List.replicate (n / 2) 38 ++ row ++ List.replicate (n / 2) 37)

/-- Dispatch of the entries of `features`. -/
def applyExtractor (xxh : List Nat → Nat → Nat) :
    Extractor → Mat → Nat → Nat → Nat → Option Nat
  | .stride, m, n, h, s => stride_simhash xxh m n h s
  | .segment, m, n, h, s => some (segment_simhash xxh m n h s)

/-- `enumerate` of a list. -/
def enumList {α : Type} (l : List α) : List (Nat × α) :=
  (List.range l.length).zip l

/-- The iteration space of `matrix_simhash`:
`for i, (lsh, transform) in enumerate(zip(features, transforms)): for j in n_gram_sizes`. -/
def comboList : List ((Nat × Extractor × (Mat → Mat)) × Nat) :=
  (enumList (features.zip transforms)).flatMap
    (fun it => n_gram_sizes.map (fun j => (it, j)))

/-- The (feature index, n-gram size) pairs in use. -/
def comboIndices : List (Nat × Nat) := comboList.map (fun c => (c.1.1, c.2))

/-- One loop iteration of `matrix_simhash`:
`simhash ^= lsh(transform(pad(m, j)), n=j, hashsize=hashsize, seed=seed) << hashsize * i * j`. -/
def comboStep (xxh : List Nat → Nat → Nat) (m : Mat) (hashsize seed : Nat)
    (acc : Option Nat) (c : (Nat × Extractor × (Mat → Mat)) × Nat) : Option Nat :=
  match acc with
  | none => none
  | some s =>
    match applyExtractor xxh c.1.2.1 (c.1.2.2 (pad m c.2)) c.2 hashsize seed with
    | none => none
    | some v => some (s ^^^ (v <<< shiftAmount hashsize c.1.1 c.2))

/-- `lsh_utils.matrix_simhash(m, hashsize, seed)`. -/
def matrix_simhash (xxh : List Nat → Nat → Nat) (m : Mat) (hashsize seed : Nat) :
    Option Nat :=
  comboList.foldl (comboStep xxh m hashsize seed) (some 0)

/-- `lsh_utils.rotate(simhash, bits, rotations)`: circular right rotation inside
a `bits`-wide field.  (For `bits = 0` Python raises `ZeroDivisionError`; no
claim concerns that case, and here `rotations % 0 = rotations`.) -/
def rotate (simhash bits rotations : Nat) : Nat :=
  if rotations % bits < 1 then simhash
  else
    (simhash &&& (2 ^ bits - 1)) >>> (rotations % bits) |||
      ((simhash &&& (2 ^ bits - 1)) <<< (bits - rotations % bits) &&& (2 ^ bits - 1))

/-- `lsh_utils.simdiff(a, b)`: count of differing bits up to
`max(a.bit_length(), b.bit_length())`; raises `ValueError` (`none`) when that
maximum is zero. -/
def simdiff (a b : Nat) : Option Nat :=
  if max (bit_length a) (bit_length b) < 1 then none
  else some ((List.range (max (bit_length a) (bit_length b))).countP
    (fun i => decide (0 < (a ^^^ b) &&& (1 <<< i))))

/-- `itertools.combinations(l, 2)` in iteration order. -/
def pairCombos {α : Type} : List α → List (α × α)
  | [] => []
  | x :: xs => xs.map (fun y => (x, y)) ++ pairCombos xs

/-- `tuple(sorted((a, b)))` under the Token total order. -/
def pairKey (p : Nat × Nat) : Nat × Nat := if p.1 ≤ p.2 then p else (p.2, p.1)

/-- Stable insertion of `x` before the first element `y` with `r x y`. -/
def insertBy {α : Type} (r : α → α → Bool) (x : α) : List α → List α
  | [] => [x]
  | y :: ys => if r x y then x :: y :: ys else y :: insertBy r x ys

/-- Insertion sort by `r`. -/
def sortBy {α : Type} (r : α → α → Bool) : List α → List α
  | [] => []
  | x :: xs => insertBy r x (sortBy r xs)

/-- Python's stable `sorted(l, key=key)`: sort (index, value) pairs by the
strict lexicographic order on (key value, original index). -/
def stableSortBy (key : Nat → Nat) (l : List Nat) : List Nat :=
  (sortBy
    (fun a b => key a.2 < key b.2 || (key a.2 == key b.2 && a.1 ≤ b.1))
    (enumList l)).map Prod.snd

/-- State of the `candidates` generator: the dedup set `d` (insertion order),
the pairs yielded so far, and whether the generator is still alive (`ok = false`
records that `simdiff` raised `ValueError` and the generator died). -/
structure GenState where
  seen : List (Nat × Nat)
  yielded : List ((Nat × Nat) × Nat)
  ok : Bool

/-- Innermost body of `candidates`: one pair `(a, b)` from
`combinations(ngram, 2)`. -/
def stepPair (lshv : Nat → Nat) (queries : List Nat) (st : GenState) (p : Nat × Nat) :
    GenState :=
  if st.ok = false then st
  else if queries = [] ∨ p.1 ∈ queries ∨ p.2 ∈ queries then
    if pairKey p ∈ st.seen then st
    else
      match simdiff (lshv p.1) (lshv p.2) with
      | some difference =>
          { st with seen := st.seen ++ [pairKey p],
                    yielded := st.yielded ++ [(pairKey p, difference)] }
      | none => { st with ok := false }
  else st

/-- One window of `candidates`: guarded by `set(ngram) & set(queries)` when
queries are present, then every pairwise combination within the window. -/
def stepWindow (lshv : Nat → Nat) (queries : List Nat) (st : GenState) (w : List Nat) :
    GenState :=
  if st.ok = false then st
  else if queries = [] ∨ ∃ x ∈ w, x ∈ queries then
    (pairCombos w).foldl (stepPair lshv queries) st
  else st

/-- One rotation band `i` of `candidates`: sort all tokens by their fingerprint
rotated by `i` and slide a window of `window` tokens across the sorted order. -/
def stepBand (fp : Nat → Nat) (queries tokens : List Nat) (simhash_bits window : Nat)
    (st : GenState) (i : Nat) : GenState :=
  (ngrams (stableSortBy (fun token => rotate (fp token) simhash_bits i)
      (queries ++ tokens)) window).foldl
    (stepWindow (fun token => rotate (fp token) simhash_bits i) queries) st

/-- `lsh_utils.candidates(queries, tokens, simhash_bits, window)` (the second,
effective definition).  `fp` abstracts `token.simhash()`. -/
def candidates (fp : Nat → Nat) (queries tokens : List Nat)
    (simhash_bits window : Nat) : GenState :=
  (List.range simhash_bits).foldl
    (stepBand fp queries tokens simhash_bits window) ⟨[], [], true⟩

/-- Bit range `[shift, shift + hashsize)` disjointness of two shift slots, the
sense in which the spec says "no two combinations' bits can collide". -/
def slotsDisjoint (hashsize i j i' j' : Nat) : Prop :=
  shiftAmount hashsize i j + hashsize ≤ shiftAmount hashsize i' j' ∨
  shiftAmount hashsize i' j' + hashsize ≤ shiftAmount hashsize i j

/-- Helper: number of set bits of `x` among bit positions below `w`. -/
def countBits (w x : Nat) : Nat := (List.range w).countP (fun i => x.testBit i)

/-- Helper: pack the low `w` bits given by `g` into a natural number. -/
def bitsToNat (g : Nat → Bool) (w : Nat) : Nat :=
  ((List.range w).map (fun i => (cond (g i) 1 0) <<< i)).sum

/-! ## Basic facts about `bit_length` -/

theorem blAux_eq (n : Nat) :
    ∀ fuel k, (∀ j, j < k → ¬ n < 2 ^ j) → Nat.size n ≤ fuel + k →
      blAux n fuel k = Nat.size n := by
  intro fuel
  induction fuel with
  | zero =>
    intro k hlow hhigh
    have hk : k ≤ Nat.size n := by
      rcases Nat.eq_zero_or_pos k with hk0 | hk0
      · omega
      · have := hlow (k - 1) (by omega)
        have : ¬ Nat.size n ≤ k - 1 := fun hle => this (Nat.size_le.mp hle)
        omega
    simp only [blAux]
    omega
  | succ fuel ih =>
    intro k hlow hhigh
    simp only [blAux]
    by_cases h : n < 2 ^ k
    · simp only [h, if_true]
      have h1 : Nat.size n ≤ k := Nat.size_le.mpr h
      have h2 : k ≤ Nat.size n := by
        rcases Nat.eq_zero_or_pos k with hk0 | hk0
        · omega
        · have := hlow (k - 1) (by omega)
          have : ¬ Nat.size n ≤ k - 1 := fun hle => this (Nat.size_le.mp hle)
          omega
      omega
    · simp only [h, if_false]
      exact ih (k + 1) (fun j hj => by rcases Nat.lt_succ_iff_lt_or_eq.mp hj with h' | h'
                                       · exact hlow j h'
                                       · subst h'; exact h) (by omega)

theorem bit_length_eq_size (n : Nat) : bit_length n = Nat.size n := by
  have := blAux_eq n n 0 (by omega) (by
    have : Nat.size n ≤ n := Nat.size_le.mpr (Nat.lt_two_pow n)
    omega)
  simpa [bit_length] using this

theorem bit_length_le {n w : Nat} : bit_length n ≤ w ↔ n < 2 ^ w := by
  rw [bit_length_eq_size]; exact Nat.size_le

theorem bit_length_eq_zero {n : Nat} : bit_length n = 0 ↔ n = 0 := by
  rw [bit_length_eq_size]; exact Nat.size_eq_zero

/-! ## Bit-packing lemmas (`bitsToNat`, `packVotes`) -/

theorem bitsToNat_succ (g : Nat → Bool) (w : Nat) :
    bitsToNat g (w + 1) = (cond (g 0) 1 0) + 2 * bitsToNat (fun i => g (i + 1)) w := by
  simp only [bitsToNat, List.range_succ_eq_map, List.map_cons, List.map_map, List.sum_cons,
    Nat.shiftLeft_zero]
  congr 1
  have : ((List.range w).map (fun i => (cond (g (i + 1)) 1 0) <<< (i + 1))).sum =
      ((List.range w).map (fun i => 2 * ((cond (g (i + 1)) 1 0) <<< i))).sum := by
    congr 1
    apply List.map_congr_left
    intro i _
    rw [Nat.shiftLeft_succ]
  rw [Function.comp_def]
  rw [this, ← List.sum_map_mul_left]

theorem bitsToNat_lt (g : Nat → Bool) (w : Nat) : bitsToNat g w < 2 ^ w := by
  induction w generalizing g with
  | zero => simp [bitsToNat]
  | succ w ih =>
    rw [bitsToNat_succ]
    have h1 := ih (fun i => g (i + 1))
    have h2 : (cond (g 0) 1 0) ≤ 1 := by cases g 0 <;> simp
    have : 2 ^ (w + 1) = 2 * 2 ^ w := by ring
    omega

theorem bitsToNat_testBit (g : Nat → Bool) (w j : Nat) :
    (bitsToNat g w).testBit j = (decide (j < w) && g j) := by
  induction w generalizing g j with
  | zero => simp [bitsToNat]
  | succ w ih =>
    rw [bitsToNat_succ]
    cases j with
    | zero =>
      rw [Nat.testBit_zero]
      cases hg : g 0 <;> simp [hg, Nat.add_mul_mod_self_left]
    | succ j =>
      rw [Nat.testBit_add_one]
      have : ((cond (g 0) 1 0) + 2 * bitsToNat (fun i => g (i + 1)) w) / 2 =
          bitsToNat (fun i => g (i + 1)) w := by
        cases g 0 <;> (simp only [Bool.cond_false, Bool.cond_true]; omega)
      rw [this, ih]
      simp [Nat.succ_lt_succ_iff]

theorem packVotes_eq_bitsToNat (lsh : Nat → Int) (hashsize : Nat) :
    packVotes lsh hashsize =
      bitsToNat (fun i => decide (0 < lsh (hashsize - 1 - i))) hashsize := by
  simp only [packVotes, bitsToNat]
  congr 1
  apply List.map_congr_left
  intro i _
  rw [Bool.cond_decide]

theorem packVotes_lt (lsh : Nat → Int) (hashsize : Nat) :
    packVotes lsh hashsize < 2 ^ hashsize := by
  rw [packVotes_eq_bitsToNat]; exact bitsToNat_lt _ _

theorem packVotes_testBit (lsh : Nat → Int) (hashsize j : Nat) (hj : j < hashsize) :
    (packVotes lsh hashsize).testBit j = decide (0 < lsh (hashsize - 1 - j)) := by
  rw [packVotes_eq_bitsToNat, bitsToNat_testBit]
  simp [hj]

/-! ## Facts about `rotate` -/

theorem testBit_false_of_lt {x w j : Nat} (hx : x < 2 ^ w) (hj : w ≤ j) :
    x.testBit j = false :=
  Nat.testBit_lt_two_pow (lt_of_lt_of_le hx (Nat.pow_le_pow_right (by omega) hj))

theorem rotate_rotations_zero (x w : Nat) : rotate x w 0 = x := by
  simp [rotate, Nat.zero_mod]

theorem rotate_full (x w : Nat) : rotate x w w = x := by
  simp [rotate, Nat.mod_self]

theorem rotate_of_zero (w k : Nat) : rotate 0 w k = 0 := by
  unfold rotate
  split
  · rfl
  · simp

theorem rotate_mod (x w k : Nat) : rotate x w k = rotate x w (k % w) := by
  unfold rotate
  rw [Nat.mod_mod]

theorem and_two_pow_sub_one_of_lt {x w : Nat} (hx : x < 2 ^ w) :
    x &&& (2 ^ w - 1) = x := by
  apply Nat.eq_of_testBit_eq
  intro i
  rw [Nat.testBit_and, Nat.testBit_two_pow_sub_one]
  by_cases hi : i < w
  · simp [hi]
  · simp only [hi, decide_False, Bool.and_false]
    exact (testBit_false_of_lt hx (Nat.le_of_not_lt hi)).symm

theorem rotate_lt {x w : Nat} (hx : x < 2 ^ w) (k : Nat) : rotate x w k < 2 ^ w := by
  unfold rotate
  split
  · exact hx
  · apply Nat.or_lt_two_pow
    · rw [Nat.shiftRight_eq_div_pow]
      exact lt_of_le_of_lt (le_trans (Nat.div_le_self _ _) Nat.and_le_left) hx
    · have h1 : (0 : Nat) < 2 ^ w := Nat.two_pow_pos w
      exact lt_of_le_of_lt Nat.and_le_right (by omega)

theorem rotate_testBit {x w k j : Nat} (hk : k < w) (hx : x < 2 ^ w) (hj : j < w) :
    (rotate x w k).testBit j = x.testBit ((j + k) % w) := by
  have hkmod : k % w = k := Nat.mod_eq_of_lt hk
  rcases Nat.eq_zero_or_pos k with hk0 | hk0
  · subst hk0
    rw [rotate_rotations_zero, Nat.add_zero, Nat.mod_eq_of_lt hj]
  · unfold rotate
    rw [hkmod]
    have hnot : ¬ k < 1 := by omega
    simp only [hnot, if_false]
    rw [and_two_pow_sub_one_of_lt hx]
    rw [Nat.testBit_or, Nat.testBit_shiftRight, Nat.testBit_and,
      Nat.testBit_shiftLeft, Nat.testBit_two_pow_sub_one]
    by_cases hcase : j < w - k
    · have h1 : (j + k) % w = j + k := Nat.mod_eq_of_lt (by omega)
      have h2 : ¬ (w - k ≤ j) := by omega
      simp only [h1, ge_iff_le, h2, decide_False, Bool.false_and, Bool.and_false,
        Bool.or_false]
      rw [Nat.add_comm k j]
    · have h1 : x.testBit (k + j) = false := testBit_false_of_lt hx (by omega)
      have h2 : w - k ≤ j := by omega
      have h3 : (j + k) % w = j - (w - k) := by
        have hge : w ≤ j + k := by omega
        rw [Nat.mod_eq_sub_mod hge, Nat.mod_eq_of_lt (by omega)]
        omega
      simp only [h1, ge_iff_le, h2, decide_True, Bool.true_and, hj, Bool.and_true,
        Bool.false_or, h3]

theorem rotate_rotate_cancel {x w k : Nat} (hw : 1 ≤ w) (hk : k < w) (hx : x < 2 ^ w) :
    rotate (rotate x w k) w (w - k) = x := by
  rcases Nat.eq_zero_or_pos k with hk0 | hk0
  · subst hk0
    rw [rotate_rotations_zero, Nat.sub_zero, rotate_full]
  · have hwk : w - k < w := by omega
    have hr1 : rotate x w k < 2 ^ w := rotate_lt hx k
    apply Nat.eq_of_testBit_eq
    intro i
    by_cases hi : i < w
    · rw [rotate_testBit hwk hr1 hi]
      have hmod : (i + (w - k)) % w < w := Nat.mod_lt _ (by omega)
      rw [rotate_testBit hk hx hmod]
      congr 1
      rw [Nat.mod_add_mod]
      have : i + (w - k) + k = i + w := by omega
      rw [this, Nat.add_mod_right, Nat.mod_eq_of_lt hi]
    · rw [testBit_false_of_lt (rotate_lt hr1 (w - k)) (by omega),
        testBit_false_of_lt hx (by omega)]

theorem rotate_inj {x y w k : Nat} (hx : x < 2 ^ w) (hy : y < 2 ^ w)
    (h : rotate x w k = rotate y w k) : x = y := by
  rcases Nat.eq_zero_or_pos w with hw0 | hw0
  · subst hw0
    have hx0 : x = 0 := by simpa using hx
    have hy0 : y = 0 := by simpa using hy
    rw [hx0, hy0]
  · have hk : k % w < w := Nat.mod_lt _ (by omega)
    rw [rotate_mod x, rotate_mod y] at h
    calc x = rotate (rotate x w (k % w)) w (w - k % w) :=
            (rotate_rotate_cancel (by omega) hk hx).symm
      _ = rotate (rotate y w (k % w)) w (w - k % w) := by rw [h]
      _ = y := rotate_rotate_cancel (by omega) hk hy

theorem rotate_xor {x y w : Nat} (hx : x < 2 ^ w) (hy : y < 2 ^ w) (k : Nat) :
    rotate (x ^^^ y) w k = rotate x w k ^^^ rotate y w k := by
  rcases Nat.eq_zero_or_pos w with hw0 | hw0
  · subst hw0
    have hx0 : x = 0 := by simpa using hx
    have hy0 : y = 0 := by simpa using hy
    rw [hx0, hy0]
    simp [rotate_of_zero]
  · have hk : k % w < w := Nat.mod_lt _ (by omega)
    rw [rotate_mod (x ^^^ y), rotate_mod x, rotate_mod y]
    have hxy : x ^^^ y < 2 ^ w := Nat.xor_lt_two_pow hx hy
    apply Nat.eq_of_testBit_eq
    intro i
    by_cases hi : i < w
    · rw [rotate_testBit hk hxy hi, Nat.testBit_xor, Nat.testBit_xor,
        rotate_testBit hk hx hi, rotate_testBit hk hy hi]
    · rw [testBit_false_of_lt (rotate_lt hxy _) (by omega)]
      rw [Nat.testBit_xor, testBit_false_of_lt (rotate_lt hx _) (by omega),
        testBit_false_of_lt (rotate_lt hy _) (by omega)]
      rfl

/-! ## Facts about `countBits` -/

theorem countBits_eq_of_lt {x w1 w2 : Nat} (hx : x < 2 ^ w1) (h : w1 ≤ w2) :
    countBits w2 x = countBits w1 x := by
  unfold countBits
  have : w2 = w1 + (w2 - w1) := by omega
  rw [this, List.range_add, List.countP_append]
  have hzero : ((List.range (w2 - w1)).map (w1 + ·)).countP (fun i => x.testBit i) = 0 := by
    rw [List.countP_eq_zero]
    intro t ht
    simp only [List.mem_map, List.mem_range] at ht
    obtain ⟨s, _, rfl⟩ := ht
    simp [testBit_false_of_lt hx (Nat.le_add_right _ _)]
  omega

theorem countBits_rotate {x w k : Nat} (hk : k < w) (hx : x < 2 ^ w) :
    countBits w (rotate x w k) = countBits w x := by
  have hw : 1 ≤ w := by omega
  unfold countBits
  have step1 : (List.range w).countP (fun i => (rotate x w k).testBit i) =
      (List.range w).countP (fun i => x.testBit ((i + k) % w)) := by
    apply List.countP_congr
    intro i hi
    simp only [List.mem_range] at hi
    rw [rotate_testBit hk hx hi]
  rw [step1]
  have step2 : (List.range w).countP (fun i => x.testBit ((i + k) % w)) =
      ((List.range w).map (fun i => (i + k) % w)).countP (fun i => x.testBit i) := by
    rw [List.countP_map]
    rfl
  rw [step2]
  have hperm : ((List.range w).map (fun i => (i + k) % w)).Perm (List.range w) := by
    apply List.perm_of_nodup_nodup_toFinset_eq
    · apply List.Nodup.map_on _ (List.nodup_range w)
      intro i hi i' hi' heq
      simp only [List.mem_range] at hi hi'
      have h1 : ((i + k) % w + (w - k)) % w = i := by
        rw [Nat.mod_add_mod]
        have : i + k + (w - k) = i + w := by omega
        rw [this, Nat.add_mod_right, Nat.mod_eq_of_lt hi]
      have h2 : ((i' + k) % w + (w - k)) % w = i' := by
        rw [Nat.mod_add_mod]
        have : i' + k + (w - k) = i' + w := by omega
        rw [this, Nat.add_mod_right, Nat.mod_eq_of_lt hi']
      rw [← h1, ← h2, heq]
    · exact List.nodup_range w
    · apply Finset.ext
      intro t
      simp only [List.mem_toFinset, List.mem_map, List.mem_range]
      constructor
      · rintro ⟨i, _, rfl⟩
        exact Nat.mod_lt _ (by omega)
      · intro ht
        refine ⟨(t + (w - k)) % w, Nat.mod_lt _ (by omega), ?_⟩
        rw [Nat.mod_add_mod]
        have : t + (w - k) + k = t + w := by omega
        rw [this, Nat.add_mod_right, Nat.mod_eq_of_lt ht]
  exact hperm.countP_eq _

/-! ## Facts about `simdiff` -/

theorem simdiff_none_iff (a b : Nat) : simdiff a b = none ↔ a = 0 ∧ b = 0 := by
  unfold simdiff
  split
  case isTrue h =>
    simp only [true_iff]
    have hmax : max (bit_length a) (bit_length b) = 0 := by omega
    have h1 : bit_length a = 0 := by omega
    have h2 : bit_length b = 0 := by omega
    exact ⟨bit_length_eq_zero.mp h1, bit_length_eq_zero.mp h2⟩
  case isFalse h =>
    constructor
    · intro hcontra
      exact absurd hcontra (by simp)
    · rintro ⟨rfl, rfl⟩
      exact absurd (by simp [bit_length_eq_zero.mpr rfl] :
        max (bit_length 0) (bit_length 0) < 1) h

theorem simdiff_symm (a b : Nat) : simdiff a b = simdiff b a := by
  unfold simdiff
  rw [Nat.max_comm, Nat.xor_comm]

theorem lt_two_pow_bit_length (a : Nat) : a < 2 ^ bit_length a := by
  rw [bit_length_eq_size]
  exact Nat.lt_size_self a

theorem simdiff_eq_countBits {a b w : Nat} (ha : a < 2 ^ w) (hb : b < 2 ^ w)
    (h : ¬ (a = 0 ∧ b = 0)) : simdiff a b = some (countBits w (a ^^^ b)) := by
  unfold simdiff
  have hbits : ¬ (max (bit_length a) (bit_length b) < 1) := by
    intro hlt
    exact h ⟨bit_length_eq_zero.mp (by omega), bit_length_eq_zero.mp (by omega)⟩
  simp only [hbits, if_false, Option.some.injEq]
  have hcount : (List.range (max (bit_length a) (bit_length b))).countP
      (fun i => decide (0 < (a ^^^ b) &&& (1 <<< i))) =
      countBits (max (bit_length a) (bit_length b)) (a ^^^ b) := by
    unfold countBits
    apply List.countP_congr
    intro i _
    rw [Nat.one_shiftLeft, Nat.and_two_pow]
    cases htb : (a ^^^ b).testBit i <;> simp [htb]
  rw [hcount]
  have hxor1 : a ^^^ b < 2 ^ (max (bit_length a) (bit_length b)) := by
    apply Nat.xor_lt_two_pow
    · exact lt_of_lt_of_le (lt_two_pow_bit_length a)
        (Nat.pow_le_pow_right (by omega) (Nat.le_max_left _ _))
    · exact lt_of_lt_of_le (lt_two_pow_bit_length b)
        (Nat.pow_le_pow_right (by omega) (Nat.le_max_right _ _))
  have hxor2 : a ^^^ b < 2 ^ w := Nat.xor_lt_two_pow ha hb
  rcases Nat.le_total (max (bit_length a) (bit_length b)) w with hle | hle
  · rw [countBits_eq_of_lt hxor1 hle]
  · rw [countBits_eq_of_lt hxor2 hle]

theorem simdiff_rotate {a b w : Nat} (ha : a < 2 ^ w) (hb : b < 2 ^ w) (k : Nat) :
    simdiff (rotate a w k) (rotate b w k) = simdiff a b := by
  rcases Nat.eq_zero_or_pos w with hw0 | hw0
  · subst hw0
    interval_cases a
    interval_cases b
    rw [rotate_of_zero]
  · have hk : k % w < w := Nat.mod_lt _ (by omega)
    rw [rotate_mod a, rotate_mod b]
    by_cases hz : a = 0 ∧ b = 0
    · obtain ⟨rfl, rfl⟩ := hz
      rw [rotate_of_zero]
    · have hz' : ¬ (rotate a w (k % w) = 0 ∧ rotate b w (k % w) = 0) := by
        rintro ⟨h1, h2⟩
        apply hz
        constructor
        · exact rotate_inj ha (Nat.two_pow_pos w)
            (by rw [h1, rotate_of_zero])
        · exact rotate_inj hb (Nat.two_pow_pos w)
            (by rw [h2, rotate_of_zero])
      rw [simdiff_eq_countBits (rotate_lt ha _) (rotate_lt hb _) hz',
        simdiff_eq_countBits ha hb hz]
      congr 1
      rw [← rotate_xor ha hb, countBits_rotate hk (Nat.xor_lt_two_pow ha hb)]

/-! ## Generic fold invariance -/

theorem foldl_inv {α σ : Type} (P : σ → Prop) (f : σ → α → σ) (l : List α) (s : σ)
    (h0 : P s) (hstep : ∀ s' a, a ∈ l → P s' → P (f s' a)) : P (l.foldl f s) := by
  induction l generalizing s with
  | nil => exact h0
  | cons x xs ih =>
    exact ih (f s x) (hstep s x (by simp) h0)
      (fun s' a ha hP => hstep s' a (by simp [ha]) hP)

/-! ## Facts about `pairCombos` and `pairKey` -/

theorem pairCombos_mem {α : Type} {l : List α} {p : α × α} (hp : p ∈ pairCombos l) :
    p.1 ∈ l ∧ p.2 ∈ l := by
  induction l with
  | nil => simp [pairCombos] at hp
  | cons x xs ih =>
    simp only [pairCombos, List.mem_append, List.mem_map] at hp
    rcases hp with ⟨y, hy, rfl⟩ | hp
    · exact ⟨by simp, by simp [hy]⟩
    · obtain ⟨h1, h2⟩ := ih hp
      exact ⟨by simp [h1], by simp [h2]⟩

theorem pairCombos_ne {α : Type} {l : List α} (hnd : l.Nodup) {p : α × α}
    (hp : p ∈ pairCombos l) : p.1 ≠ p.2 := by
  induction l with
  | nil => simp [pairCombos] at hp
  | cons x xs ih =>
    rw [List.nodup_cons] at hnd
    simp only [pairCombos, List.mem_append, List.mem_map] at hp
    rcases hp with ⟨y, hy, rfl⟩ | hp
    · intro hcontra
      have hxy : x = y := hcontra
      apply hnd.1
      rw [hxy]
      exact hy
    · exact ih hnd.2 hp

theorem pairKey_fst_or_snd (p : Nat × Nat) :
    (pairKey p).1 = p.1 ∧ (pairKey p).2 = p.2 ∨ (pairKey p).1 = p.2 ∧ (pairKey p).2 = p.1 := by
  unfold pairKey
  split
  · left; exact ⟨rfl, rfl⟩
  · right; exact ⟨rfl, rfl⟩

theorem pairKey_mem_pairCombos {l : List Nat} {a b : Nat} (ha : a ∈ l) (hb : b ∈ l)
    (hab : a < b) : (a, b) ∈ (pairCombos l).map pairKey := by
  induction l with
  | nil => simp at ha
  | cons x xs ih =>
    simp only [pairCombos, List.map_append, List.mem_append, List.map_map]
    rcases List.mem_cons.mp ha with rfl | ha'
    · left
      have hb' : b ∈ xs := by
        rcases List.mem_cons.mp hb with rfl | hb'
        · omega
        · exact hb'
      refine List.mem_map.mpr ⟨b, hb', ?_⟩
      simp [pairKey, Nat.le_of_lt hab]
    · rcases List.mem_cons.mp hb with rfl | hb'
      · left
        refine List.mem_map.mpr ⟨a, ha', ?_⟩
        have : ¬ (b ≤ a) := by omega
        simp [pairKey, this]
      · right
        exact ih ha' hb'

theorem mem_pairCombos_pairKey {l : List Nat} (hnd : l.Nodup) {q : Nat × Nat}
    (hq : q ∈ (pairCombos l).map pairKey) : q.1 ∈ l ∧ q.2 ∈ l ∧ q.1 < q.2 := by
  obtain ⟨p, hp, rfl⟩ := List.mem_map.mp hq
  obtain ⟨h1, h2⟩ := pairCombos_mem hp
  have hne := pairCombos_ne hnd hp
  unfold pairKey
  split
  case isTrue h => exact ⟨h1, h2, by omega⟩
  case isFalse h => exact ⟨h2, h1, by omega⟩

theorem pairCombos_pairKey_nodup {l : List Nat} (hnd : l.Nodup) :
    ((pairCombos l).map pairKey).Nodup := by
  induction l with
  | nil => simp [pairCombos]
  | cons x xs ih =>
    rw [List.nodup_cons] at hnd
    simp only [pairCombos, List.map_append, List.map_map]
    rw [List.nodup_append]
    refine ⟨?_, ih hnd.2, ?_⟩
    · apply List.Nodup.map_on _ hnd.2
      intro y hy y' hy' heq
      simp only [Function.comp_apply, pairKey] at heq
      split at heq <;> split at heq <;>
        · rw [Prod.mk.injEq] at heq
          omega
    · intro q hq hq'
      obtain ⟨y, hy, rfl⟩ := List.mem_map.mp hq
      have hmem := mem_pairCombos_pairKey hnd.2 hq'
      simp only [Function.comp_apply] at hmem
      rcases pairKey_fst_or_snd (x, y) with ⟨hf, _⟩ | ⟨_, hs⟩
      · have hf' : (pairKey (x, y)).1 = x := hf
        rw [hf'] at hmem
        exact hnd.1 hmem.1
      · have hs' : (pairKey (x, y)).2 = x := hs
        rw [hs'] at hmem
        exact hnd.1 hmem.2.1

/-! ## Facts about `ngrams` -/

theorem ngrams_mem_subset {α : Type} {l w : List α} {n : Nat} (hw : w ∈ ngrams l n) :
    ∀ x ∈ w, x ∈ l := by
  unfold ngrams at hw
  split at hw
  · simp at hw
  · obtain ⟨i, _, rfl⟩ := List.mem_map.mp hw
    intro x hx
    exact List.mem_of_mem_drop (List.mem_of_mem_take hx)

theorem ngrams_self {α : Type} {l : List α} (hl : l ≠ []) : ngrams l l.length = [l] := by
  unfold ngrams
  have hlen : l.length ≠ 0 := by simpa using hl
  simp only [hlen, if_false]
  have h1 : l.length + 1 - l.length = 1 := by omega
  have h2 : List.range 1 = [0] := rfl
  rw [h1, h2]
  simp

/-! ## Facts about the stable sort -/

theorem insertBy_perm {α : Type} (r : α → α → Bool) (x : α) (l : List α) :
    (insertBy r x l).Perm (x :: l) := by
  induction l with
  | nil => exact List.Perm.refl _
  | cons y ys ih =>
    unfold insertBy
    split
    · exact List.Perm.refl _
    · exact (ih.cons y).trans (List.Perm.swap x y ys)

theorem sortBy_perm {α : Type} (r : α → α → Bool) (l : List α) : (sortBy r l).Perm l := by
  induction l with
  | nil => exact List.Perm.refl _
  | cons x xs ih => exact (insertBy_perm r x (sortBy r xs)).trans (ih.cons x)

theorem enumList_map_snd {α : Type} (l : List α) : (enumList l).map Prod.snd = l := by
  unfold enumList
  exact List.map_snd_zip _ _ (by simp)

theorem stableSortBy_perm (key : Nat → Nat) (l : List Nat) :
    (stableSortBy key l).Perm l := by
  unfold stableSortBy
  have h1 := (sortBy_perm
    (fun a b => key a.2 < key b.2 || (key a.2 == key b.2 && a.1 ≤ b.1)) (enumList l)).map
    Prod.snd
  rw [enumList_map_snd] at h1
  exact h1

theorem stableSortBy_length (key : Nat → Nat) (l : List Nat) :
    (stableSortBy key l).length = l.length :=
  (stableSortBy_perm key l).length_eq

theorem stableSortBy_mem {key : Nat → Nat} {l : List Nat} {x : Nat} :
    x ∈ stableSortBy key l ↔ x ∈ l :=
  (stableSortBy_perm key l).mem_iff

/-! ## Behaviour of one `candidates` pair step -/

theorem stepPair_spec (lshv : Nat → Nat) (queries : List Nat) (st : GenState)
    (p : Nat × Nat) :
    ((stepPair lshv queries st p).seen = st.seen ∧
      (stepPair lshv queries st p).yielded = st.yielded) ∨
    (st.ok = true ∧ (queries = [] ∨ p.1 ∈ queries ∨ p.2 ∈ queries) ∧
      pairKey p ∉ st.seen ∧
      ∃ d, simdiff (lshv p.1) (lshv p.2) = some d ∧
        (stepPair lshv queries st p).seen = st.seen ++ [pairKey p] ∧
        (stepPair lshv queries st p).yielded = st.yielded ++ [(pairKey p, d)] ∧
        (stepPair lshv queries st p).ok = true) := by
  unfold stepPair
  by_cases hok : st.ok = false
  · rw [if_pos hok]
    exact Or.inl ⟨rfl, rfl⟩
  · rw [if_neg hok]
    by_cases hguard : queries = [] ∨ p.1 ∈ queries ∨ p.2 ∈ queries
    · rw [if_pos hguard]
      by_cases hkey : pairKey p ∈ st.seen
      · rw [if_pos hkey]
        exact Or.inl ⟨rfl, rfl⟩
      · rw [if_neg hkey]
        have hok' : st.ok = true := by
          cases hcase : st.ok
          · exact absurd hcase hok
          · rfl
        cases hd : simdiff (lshv p.1) (lshv p.2) with
        | none => exact Or.inl ⟨rfl, rfl⟩
        | some d => exact Or.inr ⟨hok', hguard, hkey, d, rfl, rfl, rfl, hok'⟩
    · rw [if_neg hguard]
      exact Or.inl ⟨rfl, rfl⟩

theorem stepPair_noop {lshv : Nat → Nat} {queries : List Nat} {st : GenState}
    {p : Nat × Nat} (h : pairKey p ∈ st.seen) :
    stepPair lshv queries st p = st := by
  unfold stepPair
  by_cases hok : st.ok = false
  · rw [if_pos hok]
  · rw [if_neg hok]
    by_cases hguard : queries = [] ∨ p.1 ∈ queries ∨ p.2 ∈ queries
    · rw [if_pos hguard, if_pos h]
    · rw [if_neg hguard]

theorem foldl_fixed {α σ : Type} (f : σ → α → σ) (l : List α) (s : σ)
    (h : ∀ a ∈ l, f s a = s) : l.foldl f s = s := by
  induction l with
  | nil => rfl
  | cons x xs ih =>
    rw [List.foldl_cons, h x (by simp)]
    exact ih (fun a ha => h a (by simp [ha]))

/-! ## Lifting a state invariant through the `candidates` loops -/

theorem stepWindow_inv (P : GenState → Prop) (lshv : Nat → Nat) (queries : List Nat)
    (st : GenState) (w : List Nat) (hP : P st)
    (hstep : ∀ st' p, p.1 ∈ w → p.2 ∈ w → P st' → P (stepPair lshv queries st' p)) :
    P (stepWindow lshv queries st w) := by
  unfold stepWindow
  split
  · exact hP
  · split
    · apply foldl_inv P _ _ _ hP
      intro s' q hq hPs'
      obtain ⟨h1, h2⟩ := pairCombos_mem hq
      exact hstep s' q h1 h2 hPs'
    · exact hP

theorem ngrams_sublist {α : Type} {l w : List α} {n : Nat} (hw : w ∈ ngrams l n) :
    w.Sublist l := by
  unfold ngrams at hw
  split at hw
  · simp at hw
  · obtain ⟨i, _, rfl⟩ := List.mem_map.mp hw
    exact ((l.drop i).take_sublist n).trans (l.drop_sublist i)

theorem stepBand_inv (P : GenState → Prop) (fp : Nat → Nat) (queries tokens : List Nat)
    (bits window : Nat) (st : GenState) (i : Nat) (hP : P st)
    (hstep : ∀ st' p, p.1 ∈ queries ++ tokens → p.2 ∈ queries ++ tokens → P st' →
      P (stepPair (fun t => rotate (fp t) bits i) queries st' p)) :
    P (stepBand fp queries tokens bits window st i) := by
  unfold stepBand
  apply foldl_inv P _ _ _ hP
  intro s' w hw hPs'
  apply stepWindow_inv P _ _ _ _ hPs'
  intro st' p h1 h2 hPst'
  have hm1 : p.1 ∈ queries ++ tokens :=
    stableSortBy_mem.mp (ngrams_mem_subset hw p.1 h1)
  have hm2 : p.2 ∈ queries ++ tokens :=
    stableSortBy_mem.mp (ngrams_mem_subset hw p.2 h2)
  exact hstep st' p hm1 hm2 hPst'

theorem candidates_inv (P : GenState → Prop) (fp : Nat → Nat) (queries tokens : List Nat)
    (bits window : Nat) (hP : P ⟨[], [], true⟩)
    (hstep : ∀ i st' p, p.1 ∈ queries ++ tokens → p.2 ∈ queries ++ tokens → P st' →
      P (stepPair (fun t => rotate (fp t) bits i) queries st' p)) :
    P (candidates fp queries tokens bits window) := by
  unfold candidates
  apply foldl_inv P _ _ _ hP
  intro s' i _ hPs'
  exact stepBand_inv P fp queries tokens bits window s' i hPs' (hstep i)

/-! ## Full-window processing (used for the degenerate-banding claim) -/

theorem fold_pairs_fresh (lshv : Nat → Nat) (ps : List (Nat × Nat)) :
    ∀ st : GenState, st.ok = true →
      (∀ p ∈ ps, pairKey p ∉ st.seen) →
      (ps.map pairKey).Nodup →
      (∀ p ∈ ps, simdiff (lshv p.1) (lshv p.2) ≠ none) →
      (ps.foldl (stepPair lshv []) st).ok = true ∧
      (ps.foldl (stepPair lshv []) st).seen = st.seen ++ ps.map pairKey ∧
      (ps.foldl (stepPair lshv []) st).yielded.map Prod.fst =
        st.yielded.map Prod.fst ++ ps.map pairKey := by
  induction ps with
  | nil =>
    intro st hok _ _ _
    exact ⟨hok, by simp, by simp⟩
  | cons p ps ih =>
    intro st hok hfresh hnodup hnz
    have hfp : pairKey p ∉ st.seen := hfresh p (by simp)
    obtain ⟨d, hd⟩ := Option.ne_none_iff_exists'.mp (hnz p (by simp))
    have hstep : stepPair lshv [] st p =
        { st with seen := st.seen ++ [pairKey p],
                  yielded := st.yielded ++ [(pairKey p, d)] } := by
      unfold stepPair
      rw [if_neg (by simp [hok]), if_pos (Or.inl rfl), if_neg hfp, hd]
    rw [List.foldl_cons, hstep]
    have hnodup2 : (pairKey p :: ps.map pairKey).Nodup := by simpa using hnodup
    have hpnotin := (List.nodup_cons.mp hnodup2).1
    have hnodup' := (List.nodup_cons.mp hnodup2).2
    obtain ⟨ho, hs, hy⟩ := ih
      { st with seen := st.seen ++ [pairKey p],
                yielded := st.yielded ++ [(pairKey p, d)] }
      hok
      (fun q hq => by
        simp only [List.mem_append, List.mem_singleton]
        rintro (hmem | hmem)
        · exact hfresh q (by simp [hq]) hmem
        · exact hpnotin (hmem ▸ List.mem_map_of_mem pairKey hq))
      hnodup'
      (fun q hq => hnz q (by simp [hq]))
    refine ⟨ho, ?_, ?_⟩
    · rw [hs]
      simp
    · rw [hy]
      simp

theorem stepBand_fixed (fp : Nat → Nat) (tokens : List Nat) (bits window : Nat)
    (st : GenState) (i : Nat) (hok : st.ok = true) (hnd : tokens.Nodup)
    (hseen : ∀ p : Nat × Nat, p.1 ∈ tokens → p.2 ∈ tokens → p.1 ≠ p.2 →
      pairKey p ∈ st.seen) :
    stepBand fp [] tokens bits window st i = st := by
  unfold stepBand
  apply foldl_fixed
  intro w hw
  have hsnd : (stableSortBy (fun t => rotate (fp t) bits i) ([] ++ tokens)).Nodup :=
    ((stableSortBy_perm _ _).nodup_iff).mpr (by simpa using hnd)
  have hwnd : w.Nodup := (ngrams_sublist hw).nodup hsnd
  unfold stepWindow
  rw [if_neg (by simp [hok]), if_pos (Or.inl rfl)]
  apply foldl_fixed
  intro p hp
  apply stepPair_noop
  obtain ⟨h1, h2⟩ := pairCombos_mem hp
  have hne := pairCombos_ne hwnd hp
  have hm1 : p.1 ∈ tokens := by
    have := stableSortBy_mem.mp (ngrams_mem_subset hw p.1 h1)
    simpa using this
  have hm2 : p.2 ∈ tokens := by
    have := stableSortBy_mem.mp (ngrams_mem_subset hw p.2 h2)
    simpa using this
  exact hseen p hm1 hm2 hne

theorem stepBand_zero_full (fp : Nat → Nat) (tokens : List Nat) (bits : Nat)
    (hnd : tokens.Nodup) (hne : tokens ≠ [])
    (hnz : ∀ a ∈ tokens, ∀ b ∈ tokens, a ≠ b → ¬ (fp a = 0 ∧ fp b = 0)) :
    (stepBand fp [] tokens bits tokens.length ⟨[], [], true⟩ 0).ok = true ∧
    (stepBand fp [] tokens bits tokens.length ⟨[], [], true⟩ 0).seen =
      (pairCombos (stableSortBy (fun t => rotate (fp t) bits 0) ([] ++ tokens))).map
        pairKey ∧
    (stepBand fp [] tokens bits tokens.length ⟨[], [], true⟩ 0).yielded.map Prod.fst =
      (pairCombos (stableSortBy (fun t => rotate (fp t) bits 0) ([] ++ tokens))).map
        pairKey := by
  unfold stepBand
  have hperm := stableSortBy_perm (fun t => rotate (fp t) bits 0) ([] ++ tokens)
  have hsnd : (stableSortBy (fun t => rotate (fp t) bits 0) ([] ++ tokens)).Nodup :=
    (hperm.nodup_iff).mpr (by simpa using hnd)
  have hlen : tokens.length =
      (stableSortBy (fun t => rotate (fp t) bits 0) ([] ++ tokens)).length := by
    rw [stableSortBy_length]
    simp
  have hsne : stableSortBy (fun t => rotate (fp t) bits 0) ([] ++ tokens) ≠ [] := by
    intro hcontra
    apply hne
    have := hperm.length_eq
    rw [hcontra] at this
    simpa using (List.length_eq_zero.mp this.symm)
  rw [hlen, ngrams_self hsne, List.foldl_cons, List.foldl_nil]
  unfold stepWindow
  rw [if_neg (by simp), if_pos (Or.inl rfl)]
  have hfresh := fold_pairs_fresh (fun t => rotate (fp t) bits 0)
    (pairCombos (stableSortBy (fun t => rotate (fp t) bits 0) ([] ++ tokens)))
    ⟨[], [], true⟩ rfl (by simp) (pairCombos_pairKey_nodup hsnd)
    (by
      intro p hp
      obtain ⟨h1, h2⟩ := pairCombos_mem hp
      have hne' := pairCombos_ne hsnd hp
      have hm1 : p.1 ∈ tokens := by simpa using hperm.mem_iff.mp h1
      have hm2 : p.2 ∈ tokens := by simpa using hperm.mem_iff.mp h2
      show simdiff (rotate (fp p.1) bits 0) (rotate (fp p.2) bits 0) ≠ none
      rw [rotate_rotations_zero, rotate_rotations_zero]
      intro hcontra
      exact hnz p.1 hm1 p.2 hm2 hne' (simdiff_none_iff _ _ |>.mp hcontra))
  obtain ⟨ho, hs, hy⟩ := hfresh
  exact ⟨ho, by simpa using hs, by simpa using hy⟩

/-! ## Width bounds for the simhash extractors and `matrix_simhash` -/

theorem segment_simhash_lt (xxh : List Nat → Nat → Nat) (m : Mat) (n hashsize seed : Nat) :
    segment_simhash xxh m n hashsize seed < 2 ^ hashsize := by
  unfold segment_simhash
  split
  · exact Nat.two_pow_pos hashsize
  · exact packVotes_lt _ _

theorem stride_simhash_lt {xxh : List Nat → Nat → Nat} {m : Mat}
    {n hashsize seed v : Nat} (h : stride_simhash xxh m n hashsize seed = some v) :
    v < 2 ^ hashsize := by
  unfold stride_simhash at h
  split at h
  · rw [← Option.some.inj h]
    exact Nat.two_pow_pos hashsize
  · split at h
    · exact absurd h (by simp)
    · rw [← Option.some.inj h]
      exact packVotes_lt _ _

theorem applyExtractor_lt {xxh : List Nat → Nat → Nat} {e : Extractor} {m : Mat}
    {n hashsize seed v : Nat} (h : applyExtractor xxh e m n hashsize seed = some v) :
    v < 2 ^ hashsize := by
  cases e with
  | stride => exact stride_simhash_lt h
  | segment =>
    simp only [applyExtractor] at h
    rw [← Option.some.inj h]
    exact segment_simhash_lt xxh m n hashsize seed

theorem comboFold_bound (xxh : List Nat → Nat → Nat) (m : Mat) (hashsize seed : Nat)
    (l : List ((Nat × Extractor × (Mat → Mat)) × Nat))
    (hl : ∀ c ∈ l, c.1.1 * c.2 ≤ 21) :
    ∀ acc : Option Nat, (∀ s, acc = some s → s < 2 ^ (22 * hashsize)) →
      ∀ v, l.foldl (comboStep xxh m hashsize seed) acc = some v →
        v < 2 ^ (22 * hashsize) := by
  induction l with
  | nil =>
    intro acc hacc v hv
    exact hacc v hv
  | cons c l ih =>
    intro acc hacc v hv
    rw [List.foldl_cons] at hv
    refine ih (fun c' hc' => hl c' (by simp [hc'])) _ ?_ v hv
    intro s hs
    unfold comboStep at hs
    cases acc with
    | none => simp at hs
    | some s0 =>
      cases he : applyExtractor xxh c.1.2.1 (c.1.2.2 (pad m c.2)) c.2 hashsize seed with
      | none => rw [he] at hs; simp at hs
      | some v0 =>
        rw [he] at hs
        simp only [Option.some.injEq] at hs
        rw [← hs]
        have hb0 : s0 < 2 ^ (22 * hashsize) := hacc s0 rfl
        have hv0 : v0 < 2 ^ hashsize := applyExtractor_lt he
        have h21 : shiftAmount hashsize c.1.1 c.2 ≤ 21 * hashsize := by
          unfold shiftAmount
          calc hashsize * c.1.1 * c.2 = (c.1.1 * c.2) * hashsize := by ring
            _ ≤ 21 * hashsize := Nat.mul_le_mul_right _ (hl c (by simp))
        have hshift : v0 <<< shiftAmount hashsize c.1.1 c.2 < 2 ^ (22 * hashsize) := by
          rw [Nat.shiftLeft_eq]
          calc v0 * 2 ^ shiftAmount hashsize c.1.1 c.2
              < 2 ^ hashsize * 2 ^ shiftAmount hashsize c.1.1 c.2 :=
                (Nat.mul_lt_mul_right (Nat.two_pow_pos _)).mpr hv0
            _ = 2 ^ (hashsize + shiftAmount hashsize c.1.1 c.2) := by
                rw [Nat.pow_add]
            _ ≤ 2 ^ (22 * hashsize) := Nat.pow_le_pow_right (by omega) (by omega)
        exact Nat.xor_lt_two_pow hb0 hshift

theorem matrix_simhash_lt {xxh : List Nat → Nat → Nat} {m : Mat}
    {hashsize seed v : Nat} (h : matrix_simhash xxh m hashsize seed = some v) :
    v < 2 ^ (22 * hashsize) := by
  unfold matrix_simhash at h
  refine comboFold_bound xxh m hashsize seed comboList ?_ (some 0) ?_ v h
  · intro c hc
    have hall : ∀ q ∈ comboIndices, q.1 * q.2 ≤ 21 := by decide
    exact hall (c.1.1, c.2) (List.mem_map_of_mem _ hc)
  · intro s hs
    rw [← Option.some.inj hs]
    exact Nat.two_pow_pos _

/-! ## Claim theorems -/

/-- C1 (counterexample): with hashsize 1 and an underlying hash that always
returns 1, the composite fingerprint of the 1×1 matrix `[[0]]` is 2148073,
whose bit-length (22) exceeds `totalBits 1 = 12`: the fingerprint is *not*
bounded by `totalBits = hashsize × #features × #n-gram-sizes` significant bits,
because the shift slot `hashsize·3·7 = 21·hashsize` lies far above it. -/
theorem c1_counterexample :
    matrix_simhash (fun _ _ => 1) [[0]] 1 0 = some 2148073 ∧
    totalBits 1 = 12 ∧
    ¬ (2148073 < 2 ^ totalBits 1) := by
  exact ⟨by decide, by decide, by decide⟩

/-- C1 (amended): for every underlying hash, matrix, hashsize and seed, when
`matrix_simhash` returns a value (it can also raise, see C6), that value is a
non-negative integer with at most `22 × hashsize` significant bits, where
`22 = (#features − 1) × max(n_gram_sizes) + 1` is the highest populated shift
slot plus its own width — not the code's `SIMHASH_BITS = 12 × hashsize`. -/
theorem c1_matrix_simhash_bound (xxh : List Nat → Nat → Nat) (m : Mat)
    (hashsize seed v : Nat) (h : matrix_simhash xxh m hashsize seed = some v) :
    v < 2 ^ (22 * hashsize) :=
  matrix_simhash_lt h

theorem c1_witness : (2148073 : Nat) < 2 ^ (22 * 1) :=
  c1_matrix_simhash_bound (fun _ _ => 1) [[0]] 1 0 2148073 (by decide)

/-- C2: the code shifts each (feature index i, n-gram size j) contribution by
`shiftAmount hashsize i j = hashsize·i·j`, but the slots are *not* pairwise
disjoint: the in-use combinations (0,3) and (0,5) are distinct yet receive the
identical shift 0 at the default hashsize 256, so feature 0's three per-size
simhashes XOR-collide in bits [0, 256), contradicting the code's own comment
that the shifts prevent different features/n-gram sizes from clobbering one
another. -/
theorem c2_feature_zero_slot_collision :
    (0, 3) ∈ comboIndices ∧ (0, 5) ∈ comboIndices ∧
    ((0, 3) : Nat × Nat) ≠ (0, 5) ∧
    shiftAmount 256 0 3 = shiftAmount 256 0 5 ∧
    ¬ slotsDisjoint 256 0 3 0 5 := by
  refine ⟨by decide, by decide, by decide, by decide, ?_⟩
  intro hcontra
  unfold slotsDisjoint shiftAmount at hcontra
  omega

/-- C2 (context): the collision is confined to feature index 0: any two
distinct in-use combinations whose feature indices are both nonzero do occupy
disjoint hashsize-bit ranges. -/
theorem c2_nonzero_slots_disjoint (hashsize : Nat) :
    ∀ p ∈ comboIndices, ∀ q ∈ comboIndices, p ≠ q → 1 ≤ p.1 → 1 ≤ q.1 →
      slotsDisjoint hashsize p.1 p.2 q.1 q.2 := by
  have hkey : ∀ p ∈ comboIndices, ∀ q ∈ comboIndices, p ≠ q → 1 ≤ p.1 → 1 ≤ q.1 →
      p.1 * p.2 + 1 ≤ q.1 * q.2 ∨ q.1 * q.2 + 1 ≤ p.1 * p.2 := by decide
  intro p hp q hq hne h1 h2
  rcases hkey p hp q hq hne h1 h2 with h | h
  · left
    unfold shiftAmount
    calc hashsize * p.1 * p.2 + hashsize = hashsize * (p.1 * p.2 + 1) := by ring
      _ ≤ hashsize * (q.1 * q.2) := Nat.mul_le_mul_left _ h
      _ = hashsize * q.1 * q.2 := by ring
  · right
    unfold shiftAmount
    calc hashsize * q.1 * q.2 + hashsize = hashsize * (q.1 * q.2 + 1) := by ring
      _ ≤ hashsize * (p.1 * p.2) := Nat.mul_le_mul_left _ h
      _ = hashsize * p.1 * p.2 := by ring

/-- C3 (counterexample): with fingerprints 1, 2, 7 over `simhash_bits = 2` and
window 2, the pair (token 0, token 2) is first discovered in rotation band 1
and is reported with difference 1 — the Hamming distance of the *rotated*
(masked) fingerprints — while the distance of the unrotated fingerprints
`simdiff 1 7` is 2. -/
theorem c3_counterexample :
    ((0, 2), 1) ∈
      (candidates (fun t => [1, 2, 7].getD t 0) [] [0, 1, 2] 2 2).yielded ∧
    simdiff ((fun t => [1, 2, 7].getD t 0) 0) ((fun t => [1, 2, 7].getD t 0) 2) =
      some 2 ∧
    (1 : Nat) ≠ 2 := by
  exact ⟨by decide, by decide, by decide⟩

/-- C3 (amended): the generator scores a pair with the Hamming distance of the
*rotated* fingerprints of the discovering band; when every token's fingerprint
fits in `simhash_bits` bits (which the C1 bug can violate), rotation is a bit
permutation, so the reported difference equals the distance of the unrotated
fingerprints, independent of the band. -/
theorem c3_unrotated_scoring (fp : Nat → Nat) (queries tokens : List Nat)
    (bits window : Nat) (hfp : ∀ t ∈ queries ++ tokens, fp t < 2 ^ bits) :
    ∀ a b d, ((a, b), d) ∈ (candidates fp queries tokens bits window).yielded →
      simdiff (fp a) (fp b) = some d := by
  refine candidates_inv
    (fun st => ∀ a b d, ((a, b), d) ∈ st.yielded → simdiff (fp a) (fp b) = some d)
    fp queries tokens bits window (by simp) ?_
  intro i st' p hp1 hp2 hP a b d hmem
  rcases stepPair_spec (fun t => rotate (fp t) bits i) queries st' p with
    ⟨_, hy⟩ | ⟨_, _, _, d', hd', _, hy, _⟩
  · rw [hy] at hmem
    exact hP a b d hmem
  · rw [hy] at hmem
    rcases List.mem_append.mp hmem with hm | hm
    · exact hP a b d hm
    · simp only [List.mem_singleton] at hm
      rw [Prod.mk.injEq] at hm
      obtain ⟨hab, hdd⟩ := hm
      subst hdd
      have hrot : simdiff (rotate (fp p.1) bits i) (rotate (fp p.2) bits i) =
          simdiff (fp p.1) (fp p.2) :=
        simdiff_rotate (hfp p.1 hp1) (hfp p.2 hp2) i
      have hd2 : simdiff (fp p.1) (fp p.2) = some d := by
        rw [← hrot]
        exact hd'
      have ha := congrArg Prod.fst hab
      have hb := congrArg Prod.snd hab
      rcases pairKey_fst_or_snd p with ⟨h1, h2⟩ | ⟨h1, h2⟩
      · rw [show a = p.1 from ha.trans h1, show b = p.2 from hb.trans h2]
        exact hd2
      · rw [show a = p.2 from ha.trans h1, show b = p.1 from hb.trans h2,
          simdiff_symm]
        exact hd2

theorem c3_witness : simdiff ((fun t => t + 1) 0) ((fun t => t + 1) 1) = some 2 :=
  c3_unrotated_scoring (fun t => t + 1) [] [0, 1, 2] 2 2 (by decide) 0 1 2 (by decide)

/-- C4 (counterexample): for the 1×1 matrix `[[0]]`, n-gram size 1, hashsize 2
and an underlying hash that always returns 1, the majority-vote counter for bit
0 is strictly positive, yet bit 0 of `segment_simhash` is 0 (the result packs
the counters in reversed order: bit 0 holds the vote of counter 1). -/
theorem c4_counterexample :
    1 ≤ ([[0]] : Mat).length ∧ (0 : Nat) < 2 ∧
    0 < segVotes (fun _ _ => 1) [[0]] 1 2 0 0 ∧
    (segment_simhash (fun _ _ => 1) [[0]] 1 2 0).testBit 0 = false := by
  exact ⟨by decide, by decide, by decide, by decide⟩

/-- C4 (amended): on a matrix at least as large as the window, bit `j` of
either extractor's result is 1 iff the majority-vote counter for bit
`hashsize − 1 − j` (not bit `j`: the counters are packed in reversed order) is
strictly positive; ties give 0.  For the stride extractor the same holds for
the value inside `some`. -/
theorem c4_vote_bits_reversed (xxh : List Nat → Nat → Nat) (m : Mat)
    (n hashsize seed j : Nat) (hj : j < hashsize) (hrows : n ≤ m.length) :
    (segment_simhash xxh m n hashsize seed).testBit j =
      decide (0 < segVotes xxh m n hashsize seed (hashsize - 1 - j)) ∧
    (n ≤ ncols m →
      stride_simhash xxh m n hashsize seed =
        some (packVotes (strideVotes xxh m n hashsize seed) hashsize) ∧
      (packVotes (strideVotes xxh m n hashsize seed) hashsize).testBit j =
        decide (0 < strideVotes xxh m n hashsize seed (hashsize - 1 - j))) := by
  constructor
  · unfold segment_simhash
    rw [if_neg (by omega)]
    exact packVotes_testBit _ _ _ hj
  · intro hcols
    constructor
    · unfold stride_simhash
      rw [if_neg (by omega), if_neg (by omega)]
    · exact packVotes_testBit _ _ _ hj

theorem c4_witness :
    (segment_simhash (fun _ _ => 1) [[0]] 1 2 0).testBit 1 =
      decide (0 < segVotes (fun _ _ => 1) [[0]] 1 2 0 (2 - 1 - 1)) ∧
    stride_simhash (fun _ _ => 1) [[0]] 1 2 0 =
      some (packVotes (strideVotes (fun _ _ => 1) [[0]] 1 2 0) 2) ∧
    (packVotes (strideVotes (fun _ _ => 1) [[0]] 1 2 0) 2).testBit 1 =
      decide (0 < strideVotes (fun _ _ => 1) [[0]] 1 2 0 (2 - 1 - 1)) :=
  ⟨(c4_vote_bits_reversed (fun _ _ => 1) [[0]] 1 2 0 1 (by decide) (by decide)).1,
   ((c4_vote_bits_reversed (fun _ _ => 1) [[0]] 1 2 0 1 (by decide) (by decide)).2
     (by decide)).1,
   ((c4_vote_bits_reversed (fun _ _ => 1) [[0]] 1 2 0 1 (by decide) (by decide)).2
     (by decide)).2⟩

/-- C5 (counterexample): a 2-token corpus with window size 3 ≥ corpus size and
all `totalBits 1 = 12` rotation bands yields *no* candidate pairs (a sorted
list shorter than the sliding window produces no windows at all), so the
candidate set does not equal the full pairwise combination set. -/
theorem c5_counterexample :
    ([0, 1] : List Nat).length ≤ 3 ∧ ([0, 1] : List Nat).Nodup ∧
    (candidates (fun t => t + 1) [] [0, 1] (totalBits 1) 3).yielded = [] ∧
    (0 : Nat) ∈ [0, 1] ∧ (1 : Nat) ∈ [0, 1] ∧ (0 : Nat) < 1 := by
  exact ⟨by decide, by decide, by decide, by decide, by decide, by decide⟩

/-- C5 (amended): when the sliding-window size *equals* the number of tokens
(not merely bounds it from above), every band consists of the single window
holding the whole sorted corpus, so with at least one band and no two distinct
tokens both having zero fingerprints (which would raise, see C10) the set of
unordered pairs yielded equals the set of all pairwise combinations of distinct
tokens. -/
theorem c5_full_window_exhaustive (fp : Nat → Nat) (tokens : List Nat) (bits : Nat)
    (hnd : tokens.Nodup)
    (hnz : ∀ a ∈ tokens, ∀ b ∈ tokens, a ≠ b → ¬ (fp a = 0 ∧ fp b = 0))
    (hb : 1 ≤ bits) :
    (candidates fp [] tokens bits tokens.length).ok = true ∧
    ∀ a b : Nat,
      (a, b) ∈ (candidates fp [] tokens bits tokens.length).yielded.map Prod.fst ↔
      (a ∈ tokens ∧ b ∈ tokens ∧ a < b) := by
  by_cases hne : tokens = []
  · subst hne
    have hcand : candidates fp [] [] bits ([] : List Nat).length = ⟨[], [], true⟩ := by
      unfold candidates
      apply foldl_fixed
      intro i _
      rfl
    rw [hcand]
    refine ⟨rfl, ?_⟩
    intro a b
    simp
  · obtain ⟨k, rfl⟩ : ∃ k, bits = k + 1 := ⟨bits - 1, by omega⟩
    obtain ⟨hok0, hseen0, hyld0⟩ := stepBand_zero_full fp tokens (k + 1) hnd hne hnz
    have hperm := stableSortBy_perm (fun t => rotate (fp t) (k + 1) 0) ([] ++ tokens)
    have hsnd : (stableSortBy (fun t => rotate (fp t) (k + 1) 0) ([] ++ tokens)).Nodup :=
      (hperm.nodup_iff).mpr (by simpa using hnd)
    have hfix : ∀ i, stepBand fp [] tokens (k + 1) tokens.length
        (stepBand fp [] tokens (k + 1) tokens.length ⟨[], [], true⟩ 0) i =
        stepBand fp [] tokens (k + 1) tokens.length ⟨[], [], true⟩ 0 := by
      intro i
      apply stepBand_fixed _ _ _ _ _ _ hok0 hnd
      intro p h1 h2 hne'
      rw [hseen0]
      rcases Nat.lt_or_ge p.1 p.2 with hlt | hge
      · have hkey : pairKey p = (p.1, p.2) := by
          unfold pairKey
          rw [if_pos (by omega)]
        rw [hkey]
        exact pairKey_mem_pairCombos (hperm.mem_iff.mpr (by simpa using h1))
          (hperm.mem_iff.mpr (by simpa using h2)) hlt
      · have hgt : p.2 < p.1 := by omega
        have hkey : pairKey p = (p.2, p.1) := by
          unfold pairKey
          rw [if_neg (by omega)]
        rw [hkey]
        exact pairKey_mem_pairCombos (hperm.mem_iff.mpr (by simpa using h2))
          (hperm.mem_iff.mpr (by simpa using h1)) hgt
    have hcand : candidates fp [] tokens (k + 1) tokens.length =
        stepBand fp [] tokens (k + 1) tokens.length ⟨[], [], true⟩ 0 := by
      unfold candidates
      rw [List.range_succ_eq_map, List.foldl_cons]
      apply foldl_fixed
      intro i _
      exact hfix i
    rw [hcand]
    refine ⟨hok0, ?_⟩
    intro a b
    rw [hyld0]
    constructor
    · intro hmem
      obtain ⟨h1, h2, h3⟩ := mem_pairCombos_pairKey hsnd hmem
      exact ⟨by simpa using hperm.mem_iff.mp h1, by simpa using hperm.mem_iff.mp h2, h3⟩
    · rintro ⟨h1, h2, h3⟩
      exact pairKey_mem_pairCombos (hperm.mem_iff.mpr (by simpa using h1))
        (hperm.mem_iff.mpr (by simpa using h2)) h3

theorem c5_witness :
    (candidates (fun t => t + 1) [] [0, 1] 1 ([0, 1] : List Nat).length).ok = true ∧
    ((0, 1) ∈ (candidates (fun t => t + 1) [] [0, 1] 1
        ([0, 1] : List Nat).length).yielded.map Prod.fst ↔
      ((0 : Nat) ∈ [0, 1] ∧ (1 : Nat) ∈ [0, 1] ∧ (0 : Nat) < 1)) := by
  have h := c5_full_window_exhaustive (fun t => t + 1) [0, 1] 1 (by decide)
    (by decide) (by decide)
  exact ⟨h.1, h.2 0 1⟩

/-- C6: the undersized-matrix case is *not* always a defined degenerate result:
for a 4×2 matrix (2 columns < n = 3, so the matrix is smaller than the 3×3
window) the lexicographic guard `(4,2) < (3,3)` fails, `sliding_window_view`
raises `ValueError` (`none`), and `stride_simhash` does not return 0.  The
other undersized shapes do return 0: `segment_simhash` whenever it has fewer
than n rows, and `stride_simhash` when the lexicographic guard catches the
shape. -/
theorem c6_stride_raises_on_wide_thin_matrix :
    ncols [[0, 0], [0, 0], [0, 0], [0, 0]] < 3 ∧
    stride_simhash (fun _ _ => 1) [[0, 0], [0, 0], [0, 0], [0, 0]] 3 2 0 = none ∧
    segment_simhash (fun _ _ => 1) [[0]] 3 2 0 = 0 ∧
    stride_simhash (fun _ _ => 1) [[0, 0]] 3 2 0 = some 0 := by
  exact ⟨by decide, by decide, by decide, by decide⟩

/-- C7: across all rotation bands and windows, the candidate generator yields
every unordered pair at most once: the list of yielded (normalised) pairs has
no duplicates, because the global set `d` records every yielded pair and is
checked before yielding. -/
theorem c7_pairs_yielded_once (fp : Nat → Nat) (queries tokens : List Nat)
    (bits window : Nat) :
    ((candidates fp queries tokens bits window).yielded.map Prod.fst).Nodup := by
  refine (candidates_inv
    (fun st => (st.yielded.map Prod.fst).Nodup ∧
      ∀ q ∈ st.yielded.map Prod.fst, q ∈ st.seen)
    fp queries tokens bits window (by simp) ?_).1
  intro i st' p _ _ hP
  rcases stepPair_spec (fun t => rotate (fp t) bits i) queries st' p with
    ⟨hs, hy⟩ | ⟨_, _, hkey, d, _, hs, hy, _⟩
  · rw [hy, hs]
    exact hP
  · rw [hy, hs]
    constructor
    · simp only [List.map_append, List.map_cons, List.map_nil]
      apply List.Nodup.append hP.1 (by simp)
      intro q hq hq2
      simp only [List.mem_singleton] at hq2
      rw [hq2] at hq
      exact hkey (hP.2 _ hq)
    · intro q hq
      simp only [List.map_append, List.map_cons, List.map_nil] at hq
      rcases List.mem_append.mp hq with hq | hq
      · exact List.mem_append.mpr (Or.inl (hP.2 q hq))
      · simp only [List.mem_singleton] at hq
        rw [hq]
        exact List.mem_append.mpr (Or.inr (by simp))

/-- C8: in query mode (non-empty query list), every yielded pair contains at
least one query token; a pair with both tokens outside the query set is never
yielded, because each pairwise combination is guarded by
`{a, b} & set(queries)`. -/
theorem c8_query_pruning (fp : Nat → Nat) (queries tokens : List Nat)
    (bits window : Nat) (hq : queries ≠ []) :
    ∀ p d, (p, d) ∈ (candidates fp queries tokens bits window).yielded →
      p.1 ∈ queries ∨ p.2 ∈ queries := by
  refine candidates_inv
    (fun st => ∀ p d, (p, d) ∈ st.yielded → p.1 ∈ queries ∨ p.2 ∈ queries)
    fp queries tokens bits window (by simp) ?_
  intro i st' p _ _ hP q d hmem
  rcases stepPair_spec (fun t => rotate (fp t) bits i) queries st' p with
    ⟨_, hy⟩ | ⟨_, hguard, _, d', _, _, hy, _⟩
  · rw [hy] at hmem
    exact hP q d hmem
  · rw [hy] at hmem
    rcases List.mem_append.mp hmem with hm | hm
    · exact hP q d hm
    · simp only [List.mem_singleton] at hm
      have hqk : q = pairKey p := congrArg Prod.fst hm
      rcases hguard with hguard | hguard | hguard
      · exact absurd hguard hq
      · rcases pairKey_fst_or_snd p with ⟨h1, _⟩ | ⟨_, h2⟩
        · left
          rw [hqk, h1]
          exact hguard
        · right
          rw [hqk, h2]
          exact hguard
      · rcases pairKey_fst_or_snd p with ⟨_, h2⟩ | ⟨h1, _⟩
        · right
          rw [hqk, h2]
          exact hguard
        · left
          rw [hqk, h1]
          exact hguard

theorem c8_witness : (0 : Nat) ∈ [0] ∨ (1 : Nat) ∈ [0] :=
  c8_query_pruning (fun t => t + 1) [0] [1] 2 2 (by decide) (0, 1) 2 (by decide)

/-- C9 (counterexample): `rotate` masks its input to `width` bits before
rotating (for nonzero rotation amounts), so double rotation is not the
identity on values with more than `width` significant bits: at x = 4,
width = 2, k = 1 the claim's equation fails (the result is 0, not 4). -/
theorem c9_counterexample :
    (1 : Nat) ≤ 2 ∧ (1 : Nat) < 2 ∧
    rotate (rotate 4 2 1) 2 (2 - 1) = 0 ∧ (0 : Nat) ≠ 4 := by
  exact ⟨by decide, by decide, by decide, by decide⟩

/-- C9 (amended): for every value x that fits in the width
(`x < 2 ^ width`), width ≥ 1 and 0 ≤ k < width, right-rotation by k within a
width-bit field is inverted by right-rotation by width − k. -/
theorem c9_rotate_inverse (x w k : Nat) (hw : 1 ≤ w) (hk : k < w) (hx : x < 2 ^ w) :
    rotate (rotate x w k) w (w - k) = x :=
  rotate_rotate_cancel hw hk hx

theorem c9_witness : rotate (rotate 5 3 2) 3 (3 - 2) = 5 :=
  c9_rotate_inverse 5 3 2 (by decide) (by decide) (by decide)

/-- C10: `simdiff a b` raises `ValueError` (`none`) iff both operands are zero
(zero bit-length); otherwise it returns the number of set bits of `a XOR b`
counted up to `max(bitLength a, bitLength b)` — and counting over any width at
least that maximum gives the same number, so no set bit of the XOR is ever
outside the counted range and the degenerate case is never silently coerced to
a distance. -/
theorem c10_simdiff_spec (a b : Nat) :
    (simdiff a b = none ↔ a = 0 ∧ b = 0) ∧
    ∀ w, max (bit_length a) (bit_length b) ≤ w → (a ≠ 0 ∨ b ≠ 0) →
      simdiff a b = some (countBits w (a ^^^ b)) := by
  refine ⟨simdiff_none_iff a b, ?_⟩
  intro w hw hnz
  apply simdiff_eq_countBits
  · exact lt_of_lt_of_le (lt_two_pow_bit_length a)
      (Nat.pow_le_pow_right (by omega) (le_trans (Nat.le_max_left _ _) hw))
  · exact lt_of_lt_of_le (lt_two_pow_bit_length b)
      (Nat.pow_le_pow_right (by omega) (le_trans (Nat.le_max_right _ _) hw))
  · rintro ⟨rfl, rfl⟩
    rcases hnz with h | h
    · exact h rfl
    · exact h rfl

theorem c10_witness :
    simdiff 1 2 = some (countBits 8 (1 ^^^ 2)) ∧ simdiff 0 0 = none :=
  ⟨(c10_simdiff_spec 1 2).2 8 (by decide) (Or.inl (by decide)),
   (c10_simdiff_spec 0 0).1.mpr ⟨rfl, rfl⟩⟩
